import Mathlib

/-!
Verification of the gauge-invariant gate-set core of pyGSTi
(`packages/pygsti/objects/gigateset.py`).

The embedding below translates the arithmetic of that module into exact
rational arithmetic: a complex number is a pair of rationals, numpy vectors
and matrices become lists, and every Python `assert` (or runtime error such
as a tuple-unpacking `ValueError`) appears as an `Option`-valued failure.
Diagnostic `print` warnings of `_get_delta0_diag` are modelled as an
accumulated list of strings.
-/

set_option maxHeartbeats 1000000

-- Batteries marks rational arithmetic `@[irreducible]`, which blocks the
-- evaluation of the executable definitions below on concrete inputs;
-- restore the default reducibility (this does not affect soundness).
set_option allowUnsafeReducibility true
attribute [semireducible] Rat.add Rat.mul Rat.sub Rat.div Rat.inv

/-- Exact complex numbers: a pair of rationals, mirroring numpy complex
entries in exact arithmetic. -/
structure CC where
  re : ℚ
  im : ℚ
deriving DecidableEq, Repr

def czero : CC := ⟨0, 0⟩

def cone : CC := ⟨1, 0⟩

/-- The clamp value `1e10` used for near-zero denominators. -/
def c1e10 : CC := ⟨10000000000, 0⟩

/-- A real rational viewed as a complex number. -/
def creal (x : ℚ) : CC := ⟨x, 0⟩

/-- Complex conjugation. -/
def CC.conj (z : CC) : CC := ⟨z.re, -z.im⟩

/-- Squared magnitude `|z|^2` (used instead of `|z|` to stay inside ℚ). -/
def normSq (z : CC) : ℚ := z.re * z.re + z.im * z.im

instance : Add CC := ⟨fun z w => ⟨z.re + w.re, z.im + w.im⟩⟩

instance : Sub CC := ⟨fun z w => ⟨z.re - w.re, z.im - w.im⟩⟩

instance : Neg CC := ⟨fun z => ⟨-z.re, -z.im⟩⟩

instance : Mul CC := ⟨fun z w => ⟨z.re * w.re - z.im * w.im, z.re * w.im + z.im * w.re⟩⟩

/-- Exact complex reciprocal `1/z` (division-by-zero gives the junk value
`⟨0,0⟩`, exactly as rational division by zero does). -/
def cinv (z : CC) : CC := ⟨z.re / normSq z, -z.im / normSq z⟩

instance : Div CC := ⟨fun z w => z * cinv w⟩

/-- numpy `isreal`: the imaginary part is exactly zero. -/
def isrealC (z : CC) : Bool := z.im = 0

/-- The `np.isclose` default absolute tolerance. -/
def atol : ℚ := 1 / 100000000

/-- The `np.isclose` default relative tolerance. -/
def rtol : ℚ := 1 / 100000

/-- Squared clamp threshold: `|x| < 1e-10` is decided as `|x|^2 < 1e-20`. -/
def clampSq : ℚ := 1 / 100000000000000000000

/-- Decides `√x ≤ c + d·√b` for nonnegative rationals without leaving ℚ:
square both sides once, isolate the remaining root and square again. -/
def sqLeLin (x c d b : ℚ) : Bool :=
  let t := x - c * c - d * d * b
  decide (t ≤ 0) || decide (t * t ≤ 4 * (c * c) * (d * d) * b)

/-- The `np.isclose` test on complex values: `|a - b| ≤ atol + rtol·|b|`,
decided through squared magnitudes. -/
def cclose (a b : CC) : Bool := sqLeLin (normSq (a - b)) atol rtol (normSq b)

/-- Indexing a list-of-lists matrix with the junk value `czero` out of
bounds (all uses in the development are in bounds). -/
def mget (B : List (List CC)) (i j : ℕ) : CC := (B.getD i []).getD j czero

/-- Python tuple unpacking `a, b = xs` for a slice expected to hold two
elements; any other length raises `ValueError`, modelled as `none`. -/
def unpack2 (l : List ℚ) : Option (ℚ × ℚ) :=
  match l with
  | [x, y] => some (x, y)
  | _ => none

/-- The indices `range(0, L-1, 2)`: starts of consecutive pairs. -/
def evens (L : ℕ) : List ℕ := (List.range (L / 2)).map (fun t => 2 * t)

/-- First phase of `_get_delta0_diag`: the diagonal of `inv(delta0)` making
`inv(delta0)·rho_tilde` the all-ones vector, honouring the conjugate-pair
structure of `D0_params` (source lines 282–315).  Processes `D0_params` and
`rho_tilde` two entries at a time; a trailing singleton is the un-paired
real eigenvalue.  Failed `assert`s give `none`; the `print` diagnostics are
returned as a list of warnings. -/
def get_inv_delta0_diag : List CC → List ℚ → Option (List String × List CC)
  | r1 :: r2 :: rs, _ :: b :: Ds =>
    if b ≤ 0 then
      -- complex-conj pair at index i,i+1
      if cclose r1 r2.conj then
        let wd : List String × CC :=
          if normSq r1 < clampSq then
            (["Warning1: scaling near-zero rho_tilde element to 1.0!"], c1e10)
          else ([], cone / r1)
        match get_inv_delta0_diag rs Ds with
        | some (ws, out) => some (wd.1 ++ ws, wd.2 :: wd.2.conj :: out)
        | none => none
      else none
    else
      -- real pair at index i,i+1
      if isrealC r1 && isrealC r2 then
        let wd1 : List String × CC :=
          if normSq r1 < clampSq then
            (["Warning2: scaling near-zero rho_tilde element to 1.0!"], c1e10)
          else ([], creal (1 / r1.re))
        let wd2 : List String × CC :=
          if normSq r2 < clampSq then
            (["Warning3: scaling near-zero rho_tilde element to 1.0!"], c1e10)
          else ([], creal (1 / r1.re))  -- source line 306 reuses index i, not i+1
        match get_inv_delta0_diag rs Ds with
        | some (ws, out) => some (wd1.1 ++ wd2.1 ++ ws, wd1.2 :: wd2.2 :: out)
        | none => none
      else none
  | [r], [_] =>
    -- un-paired real eigenvalue
    if isrealC r then
      if normSq r < clampSq then
        some (["Warning4: scaling near-zero rho_tilde element to 1.0!"], [c1e10])
      else some ([], [creal (1 / r.re)])
    else none
  | [], [] => some ([], [])
  | _, _ => none
termination_by structural r _d => r

/-- Full `_get_delta0_diag`: returns `1.0 / inv_delta0_diag` (source line 317). -/
def get_delta0_diag (rho_tilde : List CC) (D0_params : List ℚ) :
    Option (List String × List CC) :=
  (get_inv_delta0_diag rho_tilde D0_params).map (fun p => (p.1, p.2.map cinv))

/-- Embeds `_get_ET_params` (source lines 320–346): encode a complex row vector
with the conjugacy structure of `D0_params` into real parameters. -/
def get_ET_params : List CC → List ℚ → Option (List ℚ)
  | r1 :: r2 :: rs, _ :: b :: Ds =>
    if b ≤ 0 then
      -- complex-conj pair at index i,i+1
      if cclose r1 r2.conj then
        (get_ET_params rs Ds).map (fun t => r1.re :: r1.im :: t)
      else none
    else
      -- real pair at index i,i+1
      if isrealC r1 && isrealC r2 then
        (get_ET_params rs Ds).map
          (fun t => ((r1.re + r2.re) / 2) :: ((r1.re - r2.re) / 2) :: t)
      else none
  | [r], [_] => if isrealC r then some [r.re] else none
  | [], [] => some []
  | _, _ => none
termination_by structural r _d => r

/-- Embeds `_get_ETilde_vector` (source lines 746–767): decode real parameters
back into the complex vector; mismatched lengths (a failing slice unpack)
give `none`. -/
def get_ETilde_vector : List ℚ → List ℚ → Option (List CC)
  | e1 :: e2 :: es, _ :: b :: Ds =>
    if b ≤ 0 then
      (get_ETilde_vector es Ds).map (fun t => (⟨e1, e2⟩ : CC) :: (⟨e1, -e2⟩ : CC) :: t)
    else
      (get_ETilde_vector es Ds).map
        (fun t => (⟨e1 + e2, 0⟩ : CC) :: (⟨e1 - e2, 0⟩ : CC) :: t)
  | [e], [_] => some [creal e]
  | [], [] => some []
  | _, _ => none
termination_by structural e _d => e

/-- The conjugacy structure dictated by `D0_params`: entries of a
conjugate-pair slot are exact conjugates, entries of a real-pair slot and
of the odd final slot are real.  Also forces equal lengths. -/
def conj_structure : List CC → List ℚ → Bool
  | r1 :: r2 :: rs, _ :: b :: Ds =>
    (if b ≤ 0 then decide (r2 = r1.conj) else isrealC r1 && isrealC r2) &&
      conj_structure rs Ds
  | [r], [_] => isrealC r
  | [], [] => true
  | _, _ => false
termination_by structural r _d => r

/-- First phase of `_get_B_params` (source lines 360–423): the diagonal of
`inv(deltaj)` fixing the diagonal elements of `B0j` to 1.  Recurses over
`Dj_params`/`D0_params` two entries at a time carrying the running row
index `i`; the trailing singleton is the un-paired real eigenvalue.
Failed `assert`s give `none`; the near-zero warnings are side-effect
prints in the source and are not tracked here. -/
def get_inv_deltaj_diag (B : List (List CC)) :
    List ℚ → List ℚ → ℕ → Option (List CC)
  | _ :: b1 :: Djs, _ :: b2 :: D0s, i =>
    if b1 ≤ 0 then
      -- complex-conj pair rows at index i,i+1
      let d1 : CC := if normSq (mget B i i) < clampSq then c1e10 else cone / mget B i i
      let ok : Bool :=
        if b2 ≤ 0 then
          cclose (mget B i i) (mget B (i+1) (i+1)).conj &&
            cclose (mget B (i+1) i) (mget B i (i+1)).conj
        else
          cclose (mget B i i) (mget B (i+1) i).conj &&
            cclose (mget B i (i+1)) (mget B (i+1) (i+1)).conj
      if ok then
        (get_inv_deltaj_diag B Djs D0s (i+2)).map (fun out => d1 :: d1.conj :: out)
      else none
    else
      -- real-pair rows at index i,i+1
      let d1 : CC :=
        if normSq (mget B i i) < clampSq then c1e10 else creal (1 / (mget B i i).re)
      let d2 : CC :=
        if normSq (mget B (i+1) (i+1)) < clampSq then c1e10
        else creal (1 / (mget B (i+1) (i+1)).re)
      let ok : Bool :=
        if b2 ≤ 0 then
          cclose (mget B i i) (mget B i (i+1)).conj &&
            cclose (mget B (i+1) i) (mget B (i+1) (i+1)).conj
        else
          isrealC (mget B i i) && isrealC (mget B (i+1) (i+1))
      if ok then
        (get_inv_deltaj_diag B Djs D0s (i+2)).map (fun out => d1 :: d2 :: out)
      else none
  | [_], [_], i =>
    -- un-paired real eigenvalue
    if isrealC (mget B i i) then
      some [if normSq (mget B i i) < clampSq then c1e10 else creal (1 / (mget B i i).re)]
    else none
  | [], [], _ => some ([] : List CC)
  | _, _, _ => none
termination_by structural a _b _i => a

/-- One 2x2 tile of the extraction loop of `_get_B_params` (source lines
430–495).  Both tags are unpacked from slices at row index `i` exactly as
the source does: line 433 reads `D0_params[i:i+2]` for the column tag. -/
def extract_tile (B0 : List (List CC)) (Dj D0 : List ℚ) (i j : ℕ) :
    Option (List ℚ) :=
  match unpack2 ((Dj.drop i).take 2), unpack2 ((D0.drop i).take 2) with
  | some (_, b1), some (_, b2) =>
    if b1 ≤ 0 then
      -- complex-conj pair rows
      let ok : Bool :=
        if b2 ≤ 0 then
          cclose (mget B0 i j) (mget B0 (i+1) (j+1)).conj &&
            cclose (mget B0 (i+1) j) (mget B0 i (j+1)).conj
        else
          cclose (mget B0 i j) (mget B0 (i+1) j).conj &&
            cclose (mget B0 i (j+1)) (mget B0 (i+1) (j+1)).conj
      if ok then
        if i ≠ j then
          some [(mget B0 i j).re, (mget B0 i j).im,
                (mget B0 i (j+1)).re, (mget B0 i (j+1)).im]
        else
          if cclose (mget B0 i j) cone then
            some [(mget B0 i (j+1)).re, (mget B0 i (j+1)).im]
          else none
      else none
    else
      if b2 ≤ 0 then
        -- real-pair rows & complex-conj pair cols
        if cclose (mget B0 i j) (mget B0 i (j+1)).conj &&
            cclose (mget B0 (i+1) j) (mget B0 (i+1) (j+1)).conj then
          if i ≠ j then
            some [(mget B0 i j).re, (mget B0 i j).im,
                  (mget B0 (i+1) j).re, (mget B0 (i+1) j).im]
          else
            if cclose (creal (mget B0 i j).re) cone &&
                cclose (creal (mget B0 (i+1) j).re) cone then
              some [(mget B0 i j).im, (mget B0 (i+1) j).im]
            else none
        else none
      else
        -- real-pair rows & cols
        if isrealC (mget B0 i j) && isrealC (mget B0 i (j+1)) &&
            isrealC (mget B0 (i+1) j) && isrealC (mget B0 (i+1) (j+1)) then
          if i ≠ j then
            some [(mget B0 i j).re, (mget B0 i (j+1)).re,
                  (mget B0 (i+1) j).re, (mget B0 (i+1) (j+1)).re]
          else
            if cclose (mget B0 i j) cone then
              some [(mget B0 i (j+1)).re, (mget B0 (i+1) j).re]
            else none
        else none
  | _, _ => none

/-- A final-row tile when `d` is odd (source lines 500–518).  The source
unpacks `D0_params[i:i+2]` with `i = d-1`, a slice of length one, so the
unpack fails for every such tile. -/
def extract_row_tile (B0 : List (List CC)) (D0 : List ℚ) (i j : ℕ) :
    Option (List ℚ) :=
  match unpack2 ((D0.drop i).take 2) with
  | some (_, b2) =>
    if b2 ≤ 0 then
      if cclose (mget B0 i j) (mget B0 i (j+1)).conj then
        some [(mget B0 i j).re, (mget B0 i j).im]
      else none
    else
      if isrealC (mget B0 i j) && isrealC (mget B0 i (j+1)) then
        some [(mget B0 i j).re, (mget B0 i (j+1)).re]
      else none
  | none => none

/-- A final-column tile when `d` is odd (source lines 522–539). -/
def extract_col_tile (B0 : List (List CC)) (Dj : List ℚ) (i j : ℕ) :
    Option (List ℚ) :=
  match unpack2 ((Dj.drop i).take 2) with
  | some (_, b1) =>
    if b1 ≤ 0 then
      if cclose (mget B0 i j) (mget B0 (i+1) j).conj then
        some [(mget B0 i j).re, (mget B0 i j).im]
      else none
    else
      if isrealC (mget B0 i j) && isrealC (mget B0 (i+1) j) then
        some [(mget B0 i j).re, (mget B0 (i+1) j).re]
      else none
  | none => none

/-- Concatenation of tile parameter blocks where any failed tile aborts
the whole call. -/
def opt_concat : List (Option (List ℚ)) → Option (List ℚ)
  | [] => some []
  | some a :: rest => (opt_concat rest).map (fun t => a ++ t)
  | none :: _ => none
termination_by structural l => l

/-- Embeds `_get_B_params` (source lines 349–573).  The dict keyed by block pair
in the source is filled in the same row-major order in which it is later
concatenated, so the flat array is produced directly here. -/
def get_B_params (invYjY0 : List (List CC)) (Dj D0 : List ℚ) :
    Option (List ℚ) :=
  if Dj.length = D0.length then
    match get_inv_deltaj_diag invYjY0 Dj D0 0 with
    | none => none
    | some invd =>
      -- B0j = diag(inv_deltaj) · invYjY0 : scale row i by invd[i]
      let B0 := List.zipWith (fun d row => row.map (fun x => d * x)) invd invYjY0
      let n := Dj.length
      let main := opt_concat
        ((evens n).flatMap (fun i => (evens n).map (fun j => extract_tile B0 Dj D0 i j)))
      if n % 2 = 1 then
        let i := n - 1
        let rowPart := opt_concat ((evens n).map (fun j => extract_row_tile B0 D0 i j))
        let colPart := opt_concat ((evens n).map (fun k => extract_col_tile B0 Dj k i))
        match main, rowPart, colPart with
        | some a, some b, some c =>
          -- final diagonal element must have been scaled to 1 (line 545)
          if cclose (mget B0 i i) cone then some (a ++ b ++ c) else none
        | _, _, _ => none
      else main
  else none

/-- The `GaugeInvGateSet` container fields set in `__init__`
(source lines 35–45).  `B0_params[0]` is a `None` placeholder. -/
structure GaugeInvGateSet where
  gate_dim : ℕ
  E_params : List ℚ
  D_params : List (List ℚ)
  B0_params : List (Option (List ℚ))
  gateLabels : List String
  storedY0 : List (List CC)
deriving DecidableEq

/-- Successive Python slices `v[k:k+L]` for a list of lengths; returns the
pieces and the rest of the vector.  Like a Python slice, a piece is simply
shorter when the vector runs out. -/
def sliceSeq : List ℚ → List ℕ → List (List ℚ) × List ℚ
  | v, [] => ([], v)
  | v, L :: rest =>
    let out := sliceSeq (v.drop L) rest
    ((v.take L) :: out.1, out.2)
termination_by structural _v l => l

/-- Successive slices sized by existing `B0_params` entries: `len(None)`
raises `TypeError`, modelled as `none`. -/
def sliceOpts : List ℚ → List (Option (List ℚ)) →
    Option (List (Option (List ℚ)) × List ℚ)
  | v, [] => some ([], v)
  | _, none :: _ => none
  | v, some ls :: rest =>
    (sliceOpts (v.drop ls.length) rest).map
      (fun out => (some (v.take ls.length) :: out.1, out.2))
termination_by structural _v l => l

/-- Embeds `GaugeInvGateSet.from_vector` (source lines 154–164): slice `v` into
`E_params`, the `D_params` entries and the `B0_params` entries, using the
established lengths.  The only `assert` checks that `B0_params[0]` is the
`None` placeholder.  No length check is performed on `v`. -/
def from_vector (s : GaugeInvGateSet) (v : List ℚ) : Option GaugeInvGateSet :=
  let dim := s.gate_dim
  let Ep := v.take dim
  let rest := v.drop dim
  let Dsl := sliceSeq rest (List.replicate s.D_params.length dim)
  match s.B0_params with
  | none :: tail =>
    match sliceOpts Dsl.2 tail with
    | some Bres =>
      some { s with E_params := Ep, D_params := Dsl.1, B0_params := none :: Bres.1 }
    | none => none
  | _ => none

/-- Entries of `B0_params[1:]` must all be arrays for `np.concatenate`;
a `None` entry would raise. -/
def seq_some : List (Option (List ℚ)) → Option (List (List ℚ))
  | [] => some []
  | none :: _ => none
  | some a :: rest => (seq_some rest).map (fun t => a :: t)
termination_by structural l => l

/-- Embeds `GaugeInvGateSet.to_vector` (source lines 167–172): assert the stored
lengths, then concatenate `E_params ++ D_params[*] ++ B0_params[1:]`. -/
def to_vector (s : GaugeInvGateSet) : Option (List ℚ) :=
  if s.E_params.length = s.gate_dim ∧ ∀ Dp ∈ s.D_params, Dp.length = s.gate_dim then
    match seq_some (s.B0_params.drop 1) with
    | some Bs => some (s.E_params ++ s.D_params.flatten ++ Bs.flatten)
    | none => none
  else none

/-- Embeds `GaugeInvGateSet.num_params` (source lines 174–175). -/
def num_params (s : GaugeInvGateSet) : Option ℕ := (to_vector s).map List.length

/-- numpy comparison of complex scalars: lexicographic on (real, imag).
Used by `evals[i] > evals[j]` in the real-pair branch. -/
def clexGt (z w : CC) : Bool := decide (w.re < z.re) || (decide (z.re = w.re) && decide (w.im < z.im))

/-- Membership test `any(i in p for p in conjugate_pairs)`. -/
def pairedIn (pairs : List (ℕ × ℕ)) (x : ℕ) : Bool :=
  pairs.any (fun p => p.1 = x || p.2 = x)

/-- Inner scan of `_parameterize_real_gate_mx` (source lines 198–209):
try to pair `i` with a later `j`.  The eigenvector-column surgery for
degenerate real pairs (lines 202–209) rewrites eigenvector columns only;
it never affects the pair list, the parameters or the permutation tracked
by this development, and its unit-normalisation needs a real square root,
so it is not modelled. -/
def inner_step (evals : List CC) (i : ℕ) (pairs : List (ℕ × ℕ)) (j : ℕ) :
    List (ℕ × ℕ) :=
  if pairedIn pairs j then pairs
  else if cclose (evals.getD i czero).conj (evals.getD j czero) then
    pairs ++ [(i, j)]
  else pairs

/-- Outer scan of `_parameterize_real_gate_mx` (source lines 196–209). -/
def outer_step (evals : List CC) (pairs : List (ℕ × ℕ)) (i : ℕ) :
    List (ℕ × ℕ) :=
  if pairedIn pairs i then pairs
  else (List.range' (i+1) (evals.length - (i+1))).foldl (inner_step evals i) pairs

/-- The greedy conjugate-pair scan (source lines 195–209). -/
def conjugate_pairs (evals : List CC) : List (ℕ × ℕ) :=
  (List.range evals.length).foldl (outer_step evals) []

/-- Indices not in any conjugate pair (source lines 213–214). -/
def remaining_of (evals : List CC) : List ℕ :=
  (List.range evals.length).filter (fun i => !(pairedIn (conjugate_pairs evals) i))

/-- Consecutive pairing of the remaining indices (source line 218). -/
def real_pairs_of (evals : List CC) : List (ℕ × ℕ) :=
  (evens (remaining_of evals).length).map
    (fun i => ((remaining_of evals).getD i 0, (remaining_of evals).getD (i+1) 0))

/-- Pointwise update of the parameter array (`eval_params[k] = x`). -/
def fset (f : ℕ → ℚ) (k : ℕ) (x : ℚ) : ℕ → ℚ :=
  fun m => if m = k then x else f m

/-- Pointwise update of the permutation matrix (`permMx[i,k] = x`). -/
def fset2 (f : ℕ → ℕ → ℚ) (i k : ℕ) (x : ℚ) : ℕ → ℕ → ℚ :=
  fun m l => if m = i ∧ l = k then x else f m l

/-- State of the parameter/permutation construction loops: the running
slot index `k`, `eval_params` and `permMx`. -/
structure PPState where
  k : ℕ
  params : ℕ → ℚ
  perm : ℕ → ℕ → ℚ

/-- Loop body for a conjugate pair (source lines 226–233).  Both branches
of the imaginary-part comparison perform identical writes, exactly as in
the source. -/
def conj_step (evals : List CC) (st : PPState) (p : ℕ × ℕ) : PPState :=
  let v := evals.getD p.1 czero
  let w := evals.getD p.2 czero
  let pm := if v.im > w.im
    then fset2 (fset2 st.perm p.1 st.k 1) p.2 (st.k + 1) 1
    else fset2 (fset2 st.perm p.1 st.k 1) p.2 (st.k + 1) 1
  { k := st.k + 2,
    params := fset (fset st.params st.k v.re) (st.k + 1) (-|v.im|),
    perm := pm }

/-- Loop body for a real pair (source lines 235–243).  Again both
comparison branches perform identical writes. -/
def real_step (evals : List CC) (st : PPState) (p : ℕ × ℕ) : PPState :=
  let v := evals.getD p.1 czero
  let w := evals.getD p.2 czero
  let pm := if clexGt v w
    then fset2 (fset2 st.perm p.1 st.k 1) p.2 (st.k + 1) 1
    else fset2 (fset2 st.perm p.1 st.k 1) p.2 (st.k + 1) 1
  { k := st.k + 2,
    params := fset (fset st.params st.k ((v.re + w.re) / 2))
      (st.k + 1) (|v.re - w.re| / 2),
    perm := pm }

/-- The state after the conjugate-pair and real-pair loops (source lines
226–243), starting from slot 0. -/
def pp_build_st2 (evals : List CC) : PPState :=
  (real_pairs_of evals).foldl (real_step evals)
    ((conjugate_pairs evals).foldl (conj_step evals) ⟨0, fun _ => 0, fun _ _ => 0⟩)

/-- The final `eval_params`/`permMx` pair: after the pair loops, an odd
leftover real eigenvalue is written at the current slot `k`
(source lines 245–248). -/
def param_perm_build (evals : List CC) : (ℕ → ℚ) × (ℕ → ℕ → ℚ) :=
  if (remaining_of evals).length % 2 = 1 then
    (fset (pp_build_st2 evals).params (pp_build_st2 evals).k
        ((evals.getD ((remaining_of evals).getLastD 0) czero).re),
      fset2 (pp_build_st2 evals).perm ((remaining_of evals).getLastD 0)
        (pp_build_st2 evals).k 1)
  else ((pp_build_st2 evals).params, (pp_build_st2 evals).perm)

/-- Embeds `_parameterize_real_gate_mx` after the eigendecomposition (source
lines 194–259): the eigenvalues/eigenvectors come from `np.linalg.eig`,
an external library call, so they are taken as the input here.  Returns
`eval_params` and `permMx` as finitely-supported functions (`np.empty`
cells never written stay at the junk value 0).  `none` models the
assertion that all remaining eigenvalues are real (line 215) and the
numpy `IndexError` raised if the write index `k` ran past `d`. -/
def parameterize_real_gate_mx (evals : List CC) :
    Option ((ℕ → ℚ) × (ℕ → ℕ → ℚ)) :=
  if (remaining_of evals).all (fun i => isrealC (evals.getD i czero)) then
    if 2 * (conjugate_pairs evals).length + (remaining_of evals).length ≤
        evals.length then
      some (param_perm_build evals)
    else none
  else none

/-- Total projection of `parameterize_real_gate_mx` used to state claims
without binding the pair of functions. -/
def ppOf (evals : List CC) : (ℕ → ℚ) × (ℕ → ℕ → ℚ) :=
  (parameterize_real_gate_mx evals).getD (fun _ => 0, fun _ _ => 0)

/-! ### Concrete instances used by the theorems below -/

/-- The identity matrix, a valid `inv(Yj)·Y0` for `Yj = Y0`. -/
def mxId (n : ℕ) : List (List CC) :=
  (List.range n).map (fun i => (List.range n).map (fun j => if i = j then cone else czero))

/-- A valid 4x4 transition matrix whose rows 0,1 are a real pair and whose
columns 2,3 are a conjugate pair (`B[0,3] = conj B[0,2]`,
`B[1,3] = conj B[1,2]`, rows 2,3 conjugate): the tile at block row 0 and
block column 1 mixes a real row pair with a conjugate column pair. -/
def mxC2 : List (List CC) :=
  [[cone, czero, ⟨0, 1⟩, ⟨0, -1⟩],
   [czero, cone, ⟨0, 2⟩, ⟨0, -2⟩],
   [czero, czero, cone, czero],
   [czero, czero, czero, cone]]

/-- Eigenvalue tags for `mxC2`: pair (0,1) is a real pair (second entry
`1 > 0`), pair (2,3) is a conjugate pair (second entry `-1 ≤ 0`). -/
def tagsC2 : List ℚ := [2, 1, 3, -1]

/-- Eigenvalues whose conjugate pair arrives with the negative-imaginary
member first and whose real pair arrives with the smaller value first. -/
def evalsC3 : List CC := [⟨1, -2⟩, ⟨1, 2⟩, ⟨3, 0⟩, ⟨7, 0⟩]

/-- Eigenvalues with one conjugate pair, one real pair and one un-paired
real eigenvalue (`d = 5`). -/
def evalsC4 : List CC := [⟨1, 2⟩, ⟨1, -2⟩, ⟨5, 0⟩, ⟨3, 0⟩, ⟨7, 0⟩]

/-- An Encoded-state container with `gate_dim = 2`, one operator and the
`B0_params[0] = None` placeholder, so `num_params = 2 + 2 = 4`. -/
def S0c7 : GaugeInvGateSet := ⟨2, [0, 0], [[0, 0]], [none], [], []⟩

/-- An Encoded-state container with `gate_dim = 2`, two operators and one
transition-parameter block of length 3, so `num_params = 2 + 4 + 3 = 9`. -/
def S9c9 : GaugeInvGateSet := ⟨2, [0, 0], [[0, 0], [0, 0]], [none, some [0, 0, 0]], [], []⟩

/-! ### Claims -/

/-- C1: the round-trip contract
`_deparameterize_real_gate_mx(Dj, D0, _get_B_params(inv(Yj)Y0, Dj, D0), Y0) = M`
fails for odd `d`: already the encoding step `_get_B_params` aborts for
every odd `d ≥ 3`, because its final-row loop unpacks the length-one slice
`D0_params[d-1:d+1]` into two variables (source line 501), a `ValueError`.
At `d = 3` with `Dj_params = D0_params = [1,2,3]` (one real pair plus the
un-paired eigenvalue) and the structurally valid transition matrix
`inv(Yj)·Y0 = I`, the encoder returns no parameter vector at all, so no
round trip can take place. -/
theorem c1_roundtrip_fails_for_odd_d :
    get_B_params (mxId 3) [1, 2, 3] [1, 2, 3] = none := by decide

/-- C2: the extraction case of a tile is NOT selected by the column tag at
column index `j`: source line 433 reads `D0_params[i:i+2]`, the tag at the
ROW index.  On `mxC2` with tags `tagsC2` (rows 0,1 a real pair, columns
2,3 a conjugate pair) the tile `(i,j) = (0,2)` is a real-pair-row by
conjugate-pair-column tile, but the code selects the case by the tag at
index 0 (a real pair) and hence runs the all-real case, whose
`isreal` assertion fails on the complex entry `B[0,2] = i`; the whole
encoding aborts instead of extracting the real-row-by-conjugate-column
parameters. -/
theorem c2_column_tag_taken_at_row_index :
    get_B_params mxC2 tagsC2 tagsC2 = none ∧
    extract_tile mxC2 tagsC2 tagsC2 0 2 = none ∧
    mget mxC2 0 3 = (mget mxC2 0 2).conj ∧
    isrealC (mget mxC2 0 2) = false := by decide

/-- C3: within a conjugate pair the member with the larger imaginary part
does NOT get the earlier slot: both branches of the comparison at source
lines 227–230 write the identical permutation entries, so the member with
the lower original index always gets the earlier slot.  On `evalsC3` the
pair is `(0,1)` with `imag(evals[1]) > imag(evals[0])`, yet column 0 of
the permutation selects index 0, not index 1; likewise for the real pair
`(2,3)` with `evals[3] > evals[2]`, column 2 selects index 2. -/
theorem c3_ordering_not_by_magnitude :
    (parameterize_real_gate_mx evalsC3).isSome = true ∧
    conjugate_pairs evalsC3 = [(0, 1)] ∧ real_pairs_of evalsC3 = [(2, 3)] ∧
    (evalsC3.getD 0 czero).im < (evalsC3.getD 1 czero).im ∧
    (ppOf evalsC3).2 0 0 = 1 ∧ (ppOf evalsC3).2 1 0 = 0 ∧
    (evalsC3.getD 2 czero).re < (evalsC3.getD 3 czero).re ∧
    (ppOf evalsC3).2 2 2 = 1 ∧ (ppOf evalsC3).2 3 2 = 0 := by decide

/-- C7: `from_vector` does not abort on a parameter vector whose length
differs from `num_params()`: there is no length check (the source line 165
TODO admits it), Python slices simply truncate.  On a container with
`num_params = 4`, `from_vector` with a length-3 vector completes and
leaves `D_params[0] = [3]` of length 1 instead of 2. -/
theorem c7_from_vector_accepts_wrong_length :
    num_params S0c7 = some 4 ∧ (3 : ℕ) ≠ 4 ∧
    from_vector S0c7 [1, 2, 3] =
      some ⟨2, [1, 2], [[3]], [none], [], []⟩ := by decide

/-- C8: the transition-parameter array has 12 entries for `d = 4`
(2+4+4+2 in row-major block order), but for `d = 5` the claimed 20-entry
array is never produced: `_get_B_params` aborts in its final-row loop on
the length-one slice `D0_params[4:6]` (source line 501). -/
theorem c8_param_counts :
    (get_B_params (mxId 4) [0, 1, 2, 3] [0, 1, 2, 3]).map List.length = some 12 ∧
    get_B_params (mxId 5) [0, 1, 2, 3, 7] [0, 1, 2, 3, 7] = none := by decide

/-! ### Basic lemmas on the complex embedding -/

theorem CC.sub_def (z w : CC) : z - w = ⟨z.re - w.re, z.im - w.im⟩ := rfl

theorem normSq_nonneg (z : CC) : 0 ≤ normSq z := by
  unfold normSq
  nlinarith [mul_self_nonneg z.re, mul_self_nonneg z.im]

theorem cclose_self (z : CC) : cclose z z = true := by
  have hz : z - z = czero := by rw [CC.sub_def]; simp [czero]
  have h0 : normSq czero = 0 := by simp [normSq, czero]
  unfold cclose sqLeLin
  rw [hz, h0]
  simp only [Bool.or_eq_true, decide_eq_true_eq]
  left
  have h := normSq_nonneg z
  unfold atol rtol
  nlinarith

theorem CC.conj_conj (z : CC) : z.conj.conj = z := by
  unfold CC.conj; simp

theorem isrealC_eq (z : CC) (h : isrealC z = true) : z.im = 0 := by
  unfold isrealC at h
  exact of_decide_eq_true h

/-- Auxiliary round-trip lemma for the E-vector encoding: under the exact
conjugacy structure of `D0_params`, decoding the encoded parameters gives
back the original vector, in exact arithmetic. -/
theorem et_roundtrip_aux : ∀ (ET : List CC) (D0 : List ℚ),
    conj_structure ET D0 = true →
    ∃ ps, get_ET_params ET D0 = some ps ∧ get_ETilde_vector ps D0 = some ET
  | r1 :: r2 :: rs, _a :: b :: Ds, h => by
    rw [conj_structure] at h
    simp only [Bool.and_eq_true] at h
    obtain ⟨h1, h2⟩ := h
    obtain ⟨ps, hps, hdec⟩ := et_roundtrip_aux rs Ds h2
    by_cases hb : b ≤ 0
    · rw [if_pos hb] at h1
      have hr2 : r2 = r1.conj := of_decide_eq_true h1
      refine ⟨r1.re :: r1.im :: ps, ?_, ?_⟩
      · have hc : cclose r1 r2.conj = true := by
          rw [hr2, CC.conj_conj]; exact cclose_self r1
        rw [get_ET_params, if_pos hb, hc]
        simp [hps]
      · rw [get_ETilde_vector, if_pos hb, hdec]
        have e1 : (⟨r1.re, r1.im⟩ : CC) = r1 := rfl
        have e2 : (⟨r1.re, -r1.im⟩ : CC) = r2 := by rw [hr2]; rfl
        simp [e1, e2]
    · rw [if_neg hb] at h1
      simp only [Bool.and_eq_true] at h1
      have hi1 : r1.im = 0 := isrealC_eq _ h1.1
      have hi2 : r2.im = 0 := isrealC_eq _ h1.2
      refine ⟨((r1.re + r2.re) / 2) :: ((r1.re - r2.re) / 2) :: ps, ?_, ?_⟩
      · rw [get_ET_params, if_neg hb, h1.1, h1.2]
        simp [hps]
      · rw [get_ETilde_vector, if_neg hb, hdec]
        have e1 : (⟨(r1.re + r2.re) / 2 + (r1.re - r2.re) / 2, 0⟩ : CC) = r1 := by
          have : (r1.re + r2.re) / 2 + (r1.re - r2.re) / 2 = r1.re := by ring
          rw [this, ← hi1]
        have e2 : (⟨(r1.re + r2.re) / 2 - (r1.re - r2.re) / 2, 0⟩ : CC) = r2 := by
          have : (r1.re + r2.re) / 2 - (r1.re - r2.re) / 2 = r2.re := by ring
          rw [this, ← hi2]
        simp [e1, e2]
  | [r], [_a], h => by
    rw [conj_structure] at h
    have hi : r.im = 0 := isrealC_eq _ h
    refine ⟨[r.re], ?_, ?_⟩
    · rw [get_ET_params, h]; simp
    · rw [get_ETilde_vector]
      have : creal r.re = r := by unfold creal; rw [← hi]
      simp [this]
  | [], [], _ => ⟨[], rfl, rfl⟩
  | [], _ :: _, h => by simp [conj_structure] at h
  | [_], [], h => by simp [conj_structure] at h
  | [_], _ :: _ :: _, h => by simp [conj_structure] at h
  | _ :: _ :: _, [], h => by simp [conj_structure] at h
  | _ :: _ :: _, [_], h => by simp [conj_structure] at h
termination_by structural ET _D0 => ET

/-- C10: the E-vector encoding round-trips exactly: for every `D0_params`
and complex vector with the conjugacy structure dictated by `D0_params`,
`_get_ETilde_vector(_get_ET_params(ET_tilde, D0_params), D0_params)`
returns `ET_tilde` in exact arithmetic. -/
theorem c10_et_roundtrip (ET : List CC) (D0 : List ℚ)
    (h : conj_structure ET D0 = true) :
    ∃ ps, get_ET_params ET D0 = some ps ∧
      get_ETilde_vector ps D0 = some ET :=
  et_roundtrip_aux ET D0 h

/-- Witness for C10 at a concrete vector with one conjugate pair and an
un-paired real entry. -/
theorem c10_et_roundtrip_witness :
    conj_structure [⟨1, 2⟩, ⟨1, -2⟩, ⟨5, 0⟩] [0, -1, 3] = true ∧
    ∃ ps, get_ET_params [⟨1, 2⟩, ⟨1, -2⟩, ⟨5, 0⟩] [0, -1, 3] = some ps ∧
      get_ETilde_vector ps [0, -1, 3] = some [⟨1, 2⟩, ⟨1, -2⟩, ⟨5, 0⟩] :=
  ⟨by decide, c10_et_roundtrip [⟨1, 2⟩, ⟨1, -2⟩, ⟨5, 0⟩] [0, -1, 3] (by decide)⟩

theorem normSq_conj (z : CC) : normSq z.conj = normSq z := by
  unfold normSq CC.conj
  ring_nf

theorem c1e10_conj : CC.conj c1e10 = c1e10 := by
  unfold c1e10 CC.conj
  norm_num

/-- A rational whose square is at least the (positive) squared clamp
threshold is nonzero. -/
theorem ne_zero_of_clampSq {x : ℚ} (h : clampSq ≤ x * x) : x ≠ 0 := by
  intro h0
  rw [h0] at h
  unfold clampSq at h
  norm_num at h

theorem cinv_creal (x : ℚ) (hx : x ≠ 0) : cinv (creal (1 / x)) = creal x := by
  unfold cinv creal normSq
  simp only [CC.mk.injEq]
  constructor
  · field_simp
  · norm_num

/-- The inverse-scaling diagonal has one entry per input entry, and the
call only succeeds when `rho_tilde` and `D0_params` have equal lengths. -/
theorem inv_delta0_length : ∀ (v : List CC) (D0 : List ℚ) (ws : List String)
    (out : List CC), get_inv_delta0_diag v D0 = some (ws, out) →
    out.length = v.length ∧ v.length = D0.length
  | [], [], ws, out, h => by
    rw [get_inv_delta0_diag] at h
    simp only [Option.some.injEq, Prod.mk.injEq] at h
    simp [← h.2]
  | [r], [a], ws, out, h => by
    rw [get_inv_delta0_diag] at h
    repeat' split at h
    all_goals first
      | exact Option.noConfusion h
      | (simp only [Option.some.injEq, Prod.mk.injEq] at h
         simp [← h.2])
  | r1 :: r2 :: rs, a :: b :: Ds, ws, out, h => by
    rw [get_inv_delta0_diag] at h
    repeat' split at h
    all_goals first
      | exact Option.noConfusion h
      | (rename_i ws' out' heq
         simp only [Option.some.injEq, Prod.mk.injEq] at h
         have IH := inv_delta0_length rs Ds ws' out' heq
         exact ⟨by simp [← h.2, IH.1], by simp [IH.2]⟩)
  | [], _ :: _, ws, out, h => by simp [get_inv_delta0_diag] at h
  | [_], [], ws, out, h => by simp [get_inv_delta0_diag] at h
  | [_], _ :: _ :: _, ws, out, h => by simp [get_inv_delta0_diag] at h
  | _ :: _ :: _, [], ws, out, h => by simp [get_inv_delta0_diag] at h
  | _ :: _ :: _, [_], ws, out, h => by simp [get_inv_delta0_diag] at h
termination_by structural v _D0 _w _o => v

/-- Reading `getD` commutes with the elementwise reciprocal map (in bounds). -/
theorem getD_map_cinv : ∀ (l : List CC) (n : ℕ), n < l.length →
    (l.map cinv).getD n czero = cinv (l.getD n czero)
  | x :: xs, 0, _ => rfl
  | x :: xs, n + 1, h => getD_map_cinv xs n (by simpa using h)
  | [], n, h => absurd h (by simp)

/-- In a real-pair slot whose two components clear the near-zero guard,
both inverse-scale entries are `1 / v[2t].re`: the entry for index `2t+1`
also divides by the real part at index `2t` (source line 306). -/
theorem delta0_real_aux (t : ℕ) : ∀ (v : List CC) (D0 : List ℚ)
    (ws : List String) (out : List CC),
    get_inv_delta0_diag v D0 = some (ws, out) →
    2 * t + 1 < D0.length →
    0 < D0.getD (2 * t + 1) 0 →
    clampSq ≤ normSq (v.getD (2 * t) czero) →
    clampSq ≤ normSq (v.getD (2 * t + 1) czero) →
    (v.getD (2 * t) czero).im = 0 ∧
    out.getD (2 * t) czero = creal (1 / (v.getD (2 * t) czero).re) ∧
    out.getD (2 * t + 1) czero = creal (1 / (v.getD (2 * t) czero).re) := by
  induction t with
  | zero =>
    intro v D0 ws out h hlen htag h1 h2
    match D0, v with
    | [], _ => simp at hlen
    | [a], _ => simp at hlen
    | a :: b :: Ds, [] => simp [get_inv_delta0_diag] at h
    | a :: b :: Ds, [r] => simp [get_inv_delta0_diag] at h
    | a :: b :: Ds, r1 :: r2 :: rs =>
      simp only [Nat.mul_zero, Nat.zero_add, List.getD_cons_succ,
        List.getD_cons_zero] at htag h1 h2 ⊢
      have hb : ¬ b ≤ 0 := not_le.mpr htag
      rw [get_inv_delta0_diag, if_neg hb] at h
      by_cases hre : (isrealC r1 && isrealC r2) = true
      · rw [if_pos hre, if_neg (not_lt.mpr h1), if_neg (not_lt.mpr h2)] at h
        cases hrec : get_inv_delta0_diag rs Ds with
        | none => rw [hrec] at h; exact Option.noConfusion h
        | some p =>
          rw [hrec] at h
          simp only [Option.some.injEq, Prod.mk.injEq] at h
          rw [Bool.and_eq_true] at hre
          refine ⟨isrealC_eq r1 hre.1, ?_, ?_⟩ <;> simp [← h.2]
      · rw [if_neg hre] at h; exact Option.noConfusion h
  | succ t ih =>
    intro v D0 ws out h hlen htag h1 h2
    match D0, v with
    | [], _ => simp at hlen
    | [a], _ => simp at hlen
    | a :: b :: Ds, [] => simp [get_inv_delta0_diag] at h
    | a :: b :: Ds, [r] => simp [get_inv_delta0_diag] at h
    | a :: b :: Ds, r1 :: r2 :: rs =>
      have hidx : 2 * (t + 1) + 1 = 2 * t + 1 + 1 + 1 := by ring
      have hidx2 : 2 * (t + 1) = 2 * t + 1 + 1 := by ring
      have hlen2 : 2 * t + 1 < Ds.length := by
        simp only [List.length_cons] at hlen; omega
      have htag2 : 0 < Ds.getD (2 * t + 1) 0 := by
        rw [hidx] at htag; simpa [List.getD_cons_succ] using htag
      have h1b : clampSq ≤ normSq (rs.getD (2 * t) czero) := by
        rw [hidx2] at h1; simpa [List.getD_cons_succ] using h1
      have h2b : clampSq ≤ normSq (rs.getD (2 * t + 1) czero) := by
        rw [hidx] at h2; simpa [List.getD_cons_succ] using h2
      rw [get_inv_delta0_diag] at h
      repeat' split at h
      all_goals first
        | exact Option.noConfusion h
        | (rename_i ws' out' heq
           simp only [Option.some.injEq, Prod.mk.injEq] at h
           obtain ⟨him, ho1, ho2⟩ := ih rs Ds ws' out' heq hlen2 htag2 h1b h2b
           simp only [hidx, hidx2, ← h.2, List.getD_cons_succ, List.getD_cons_zero]
           exact ⟨him, ho1, ho2⟩)

/-- C5: for a real-pair slot `(2t, 2t+1)` of `D0_params` (tag `> 0`) whose
two components clear the `1e-10` guard, BOTH inverse-scaling factors of
`_get_delta0_diag` equal `1.0 / v[2t].real` — the factor for index `2t+1`
divides by the real part of `v` at index `2t`, not `2t+1` (source line
306) — so the returned diagonal satisfies
`delta[2t] = delta[2t+1] = v[2t].real`, regardless of `v[2t+1]`. -/
theorem c5_real_pair_scaling_uses_first_index (v : List CC) (D0 : List ℚ)
    (t : ℕ) (ws : List String) (invd : List CC)
    (hres : get_inv_delta0_diag v D0 = some (ws, invd))
    (hlen : 2 * t + 1 < D0.length)
    (htag : 0 < D0.getD (2 * t + 1) 0)
    (h1 : clampSq ≤ normSq (v.getD (2 * t) czero))
    (h2 : clampSq ≤ normSq (v.getD (2 * t + 1) czero)) :
    invd.getD (2 * t) czero = creal (1 / (v.getD (2 * t) czero).re) ∧
    invd.getD (2 * t + 1) czero = creal (1 / (v.getD (2 * t) czero).re) ∧
    get_delta0_diag v D0 = some (ws, invd.map cinv) ∧
    (invd.map cinv).getD (2 * t) czero = creal ((v.getD (2 * t) czero).re) ∧
    (invd.map cinv).getD (2 * t + 1) czero = creal ((v.getD (2 * t) czero).re) := by
  obtain ⟨him, ho1, ho2⟩ := delta0_real_aux t v D0 ws invd hres hlen htag h1 h2
  obtain ⟨hol, hvl⟩ := inv_delta0_length v D0 ws invd hres
  have hb1 : 2 * t < invd.length := by omega
  have hb2 : 2 * t + 1 < invd.length := by omega
  have hx : (v.getD (2 * t) czero).re ≠ 0 := by
    apply ne_zero_of_clampSq
    have : normSq (v.getD (2 * t) czero) =
        (v.getD (2 * t) czero).re * (v.getD (2 * t) czero).re := by
      unfold normSq; rw [him]; ring
    rw [← this]; exact h1
  refine ⟨ho1, ho2, ?_, ?_, ?_⟩
  · rw [get_delta0_diag, hres]; rfl
  · rw [getD_map_cinv invd _ hb1, ho1, cinv_creal _ hx]
  · rw [getD_map_cinv invd _ hb2, ho2, cinv_creal _ hx]

/-- Witness for C5 at `v = [3, 5]`, `D0_params = [0, 2]` (one real pair):
the decoded diagonal is `[3, 3]` — the second entry is `3`, not `5`. -/
theorem c5_witness :
    ((get_inv_delta0_diag [⟨3, 0⟩, ⟨5, 0⟩] [0, 2] =
        some ([], [creal (1 / 3), creal (1 / 3)])) ∧
      2 * 0 + 1 < ([0, 2] : List ℚ).length ∧
      (0 : ℚ) < ([0, 2] : List ℚ).getD (2 * 0 + 1) 0 ∧
      clampSq ≤ normSq (([⟨3, 0⟩, ⟨5, 0⟩] : List CC).getD (2 * 0) czero) ∧
      clampSq ≤ normSq (([⟨3, 0⟩, ⟨5, 0⟩] : List CC).getD (2 * 0 + 1) czero)) ∧
    (([creal (1 / 3), creal (1 / 3)] : List CC).map cinv).getD (2 * 0) czero =
      creal ((([⟨3, 0⟩, ⟨5, 0⟩] : List CC).getD (2 * 0) czero).re) ∧
    (([creal (1 / 3), creal (1 / 3)] : List CC).map cinv).getD (2 * 0 + 1) czero =
      creal ((([⟨3, 0⟩, ⟨5, 0⟩] : List CC).getD (2 * 0) czero).re) :=
  ⟨⟨by decide, by decide, by decide, by decide, by decide⟩,
    (c5_real_pair_scaling_uses_first_index [⟨3, 0⟩, ⟨5, 0⟩] [0, 2] 0 []
      [creal (1 / 3), creal (1 / 3)] (by decide) (by decide) (by decide)
      (by decide) (by decide)).2.2.2⟩

/-- Under the conjugacy structure of `D0_params`, `_get_delta0_diag` never
aborts, and every component below the `1e-10` threshold yields the clamped
inverse-scale `1e10` together with at least one diagnostic warning. -/
theorem delta0_guard_aux : ∀ (v : List CC) (D0 : List ℚ),
    conj_structure v D0 = true →
    ∃ ws out, get_inv_delta0_diag v D0 = some (ws, out) ∧
      ∀ i, i < v.length → normSq (v.getD i czero) < clampSq →
        out.getD i czero = c1e10 ∧ ws ≠ []
  | r1 :: r2 :: rs, _a :: b :: Ds, h => by
    rw [conj_structure] at h
    simp only [Bool.and_eq_true] at h
    obtain ⟨h1, h2⟩ := h
    obtain ⟨ws', out', hrec, hI⟩ := delta0_guard_aux rs Ds h2
    by_cases hb : b ≤ 0
    · rw [if_pos hb] at h1
      have hr2 : r2 = r1.conj := of_decide_eq_true h1
      have hcc : cclose r1 r2.conj = true := by
        rw [hr2, CC.conj_conj]; exact cclose_self r1
      have hns : normSq r2 = normSq r1 := by rw [hr2, normSq_conj]
      by_cases hsm : normSq r1 < clampSq
      · refine ⟨"Warning1: scaling near-zero rho_tilde element to 1.0!" :: ws',
          c1e10 :: c1e10.conj :: out', ?_, ?_⟩
        · simp [get_inv_delta0_diag, if_pos hb, hcc, if_pos hsm, hrec]
        · intro i hi hsmi
          match i with
          | 0 => exact ⟨rfl, by simp⟩
          | 1 => exact ⟨by simp [c1e10_conj], by simp⟩
          | k + 2 =>
            obtain ⟨ho, _⟩ := hI k (by simpa using hi) (by simpa using hsmi)
            exact ⟨by simpa using ho, by simp⟩
      · refine ⟨ws', (cone / r1) :: (cone / r1).conj :: out', ?_, ?_⟩
        · simp [get_inv_delta0_diag, if_pos hb, hcc, if_neg hsm, hrec]
        · intro i hi hsmi
          match i with
          | 0 => exact absurd (by simpa using hsmi) hsm
          | 1 => exact absurd (by simpa [hns] using hsmi) hsm
          | k + 2 =>
            obtain ⟨ho, hw⟩ := hI k (by simpa using hi) (by simpa using hsmi)
            exact ⟨by simpa using ho, hw⟩
    · rw [if_neg hb] at h1
      by_cases hsm1 : normSq r1 < clampSq <;> by_cases hsm2 : normSq r2 < clampSq
      · refine ⟨"Warning2: scaling near-zero rho_tilde element to 1.0!" ::
          "Warning3: scaling near-zero rho_tilde element to 1.0!" :: ws',
          c1e10 :: c1e10 :: out', ?_, ?_⟩
        · simp [get_inv_delta0_diag, if_neg hb, h1, if_pos hsm1, if_pos hsm2, hrec]
        · intro i hi hsmi
          match i with
          | 0 => exact ⟨rfl, by simp⟩
          | 1 => exact ⟨rfl, by simp⟩
          | k + 2 =>
            obtain ⟨ho, _⟩ := hI k (by simpa using hi) (by simpa using hsmi)
            exact ⟨by simpa using ho, by simp⟩
      · refine ⟨"Warning2: scaling near-zero rho_tilde element to 1.0!" :: ws',
          c1e10 :: creal (1 / r1.re) :: out', ?_, ?_⟩
        · simp [get_inv_delta0_diag, if_neg hb, h1, if_pos hsm1, if_neg hsm2, hrec]
        · intro i hi hsmi
          match i with
          | 0 => exact ⟨rfl, by simp⟩
          | 1 => exact absurd (by simpa using hsmi) hsm2
          | k + 2 =>
            obtain ⟨ho, _⟩ := hI k (by simpa using hi) (by simpa using hsmi)
            exact ⟨by simpa using ho, by simp⟩
      · refine ⟨"Warning3: scaling near-zero rho_tilde element to 1.0!" :: ws',
          creal (1 / r1.re) :: c1e10 :: out', ?_, ?_⟩
        · simp [get_inv_delta0_diag, if_neg hb, h1, if_neg hsm1, if_pos hsm2, hrec]
        · intro i hi hsmi
          match i with
          | 0 => exact absurd (by simpa using hsmi) hsm1
          | 1 => exact ⟨rfl, by simp⟩
          | k + 2 =>
            obtain ⟨ho, _⟩ := hI k (by simpa using hi) (by simpa using hsmi)
            exact ⟨by simpa using ho, by simp⟩
      · refine ⟨ws', creal (1 / r1.re) :: creal (1 / r1.re) :: out', ?_, ?_⟩
        · simp [get_inv_delta0_diag, if_neg hb, h1, if_neg hsm1, if_neg hsm2, hrec]
        · intro i hi hsmi
          match i with
          | 0 => exact absurd (by simpa using hsmi) hsm1
          | 1 => exact absurd (by simpa using hsmi) hsm2
          | k + 2 =>
            obtain ⟨ho, hw⟩ := hI k (by simpa using hi) (by simpa using hsmi)
            exact ⟨by simpa using ho, hw⟩
  | [r], [_a], h => by
    rw [conj_structure] at h
    by_cases hsm : normSq r < clampSq
    · refine ⟨["Warning4: scaling near-zero rho_tilde element to 1.0!"],
        [c1e10], ?_, ?_⟩
      · simp [get_inv_delta0_diag, h, if_pos hsm]
      · intro i hi hsmi
        match i with
        | 0 => exact ⟨rfl, by simp⟩
    · refine ⟨[], [creal (1 / r.re)], ?_, ?_⟩
      · simp [get_inv_delta0_diag, h, if_neg hsm]
      · intro i hi hsmi
        match i with
        | 0 => exact absurd (by simpa using hsmi) hsm
  | [], [], _ => ⟨[], [], rfl, fun i hi => by simp at hi⟩
  | [], _ :: _, h => by simp [conj_structure] at h
  | [_], [], h => by simp [conj_structure] at h
  | [_], _ :: _ :: _, h => by simp [conj_structure] at h
  | _ :: _ :: _, [], h => by simp [conj_structure] at h
  | _ :: _ :: _, [_], h => by simp [conj_structure] at h
termination_by structural v _D0 => v

/-- C6: when a component of `v` has squared magnitude below `1e-20`
(that is, `|v[i]| < 1e-10`) and `v` has the conjugacy structure of
`D0_params`, `_get_delta0_diag` does not abort: it sets the corresponding
inverse-scale entry to exactly `1e10`, emits at least one diagnostic
warning, and still returns the final scaled diagonal. -/
theorem c6_near_zero_guard (v : List CC) (D0 : List ℚ) (i : ℕ)
    (hst : conj_structure v D0 = true) (hi : i < v.length)
    (hsm : normSq (v.getD i czero) < clampSq) :
    ∃ ws out, get_inv_delta0_diag v D0 = some (ws, out) ∧
      out.getD i czero = c1e10 ∧ ws ≠ [] ∧
      get_delta0_diag v D0 = some (ws, out.map cinv) := by
  obtain ⟨ws, out, hres, hI⟩ := delta0_guard_aux v D0 hst
  obtain ⟨ho, hw⟩ := hI i hi hsm
  exact ⟨ws, out, hres, ho, hw, by rw [get_delta0_diag, hres]; rfl⟩

/-- Witness for C6: a component of magnitude `1e-12` clamps to `1e10` with
a diagnostic, and the call completes. -/
theorem c6_witness :
    (conj_structure [⟨1 / 1000000000000, 0⟩, ⟨1, 0⟩] [0, 2] = true ∧
      0 < ([⟨1 / 1000000000000, 0⟩, ⟨1, 0⟩] : List CC).length ∧
      normSq (([⟨1 / 1000000000000, 0⟩, ⟨1, 0⟩] : List CC).getD 0 czero) < clampSq) ∧
    ∃ ws out,
      get_inv_delta0_diag [⟨1 / 1000000000000, 0⟩, ⟨1, 0⟩] [0, 2] = some (ws, out) ∧
      out.getD 0 czero = c1e10 ∧ ws ≠ [] ∧
      get_delta0_diag [⟨1 / 1000000000000, 0⟩, ⟨1, 0⟩] [0, 2] = some (ws, out.map cinv) :=
  ⟨⟨by decide, by decide, by decide⟩,
    c6_near_zero_guard [⟨1 / 1000000000000, 0⟩, ⟨1, 0⟩] [0, 2] 0
      (by decide) (by decide) (by decide)⟩

/-- Slicing a vector into `n` pieces of length `d` each: piece count,
piece lengths, concatenation and remainder. -/
theorem sliceSeq_replicate : ∀ (n : ℕ) (d : ℕ) (v : List ℚ), n * d ≤ v.length →
    (sliceSeq v (List.replicate n d)).1.length = n ∧
    (∀ Dp ∈ (sliceSeq v (List.replicate n d)).1, Dp.length = d) ∧
    (sliceSeq v (List.replicate n d)).1.flatten = v.take (n * d) ∧
    (sliceSeq v (List.replicate n d)).2 = v.drop (n * d)
  | 0, d, v, _ => by simp [sliceSeq]
  | n + 1, d, v, h => by
    have hd : d ≤ v.length := by
      have : (n + 1) * d = n * d + d := by ring
      omega
    have hrec : n * d ≤ (v.drop d).length := by
      rw [List.length_drop]
      have : (n + 1) * d = n * d + d := by ring
      omega
    obtain ⟨hl, ha, hf, hr⟩ := sliceSeq_replicate n d (v.drop d) hrec
    have hsucc : List.replicate (n + 1) d = d :: List.replicate n d :=
      List.replicate_succ d n
    have hmul : (n + 1) * d = d + n * d := by ring
    refine ⟨?_, ?_, ?_, ?_⟩
    · simp [hsucc, sliceSeq, hl]
    · intro Dp hDp
      rw [hsucc] at hDp
      simp only [sliceSeq, List.mem_cons] at hDp
      rcases hDp with h1 | h2
      · rw [h1, List.length_take]; omega
      · exact ha Dp h2
    · rw [hsucc]
      simp only [sliceSeq, List.flatten_cons]
      rw [hf, hmul, List.take_add]
    · rw [hsucc]
      simp only [sliceSeq]
      rw [hr, hmul, List.drop_drop]

/-- Slicing by the established lengths of existing `B0_params` entries:
success, the decoded pieces and the remainder. -/
theorem sliceOpts_spec : ∀ (tail : List (Option (List ℚ))) (v : List ℚ),
    (∀ b ∈ tail, b.isSome) →
    (tail.map (fun b => (b.getD []).length)).sum ≤ v.length →
    ∃ out ps,
      sliceOpts v tail =
        some (out, v.drop (tail.map (fun b => (b.getD []).length)).sum) ∧
      seq_some out = some ps ∧
      ps.flatten = v.take (tail.map (fun b => (b.getD []).length)).sum
  | [], v, _, _ => ⟨[], [], rfl, rfl, rfl⟩
  | none :: rest, v, hSome, _ => by
    have := hSome none (List.mem_cons_self none rest)
    simp at this
  | some ls :: rest, v, hSome, hlen => by
    have hS : (List.map (fun b => (b.getD []).length) (some ls :: rest)).sum =
        ls.length + (List.map (fun b => (b.getD []).length) rest).sum := by
      simp
    have hrec_le : (List.map (fun b => (b.getD []).length) rest).sum ≤
        (v.drop ls.length).length := by
      rw [List.length_drop]
      rw [hS] at hlen
      omega
    obtain ⟨out', ps', heq, hseq, hflat⟩ :=
      sliceOpts_spec rest (v.drop ls.length) (fun b hb => hSome b (by simp [hb])) hrec_le
    refine ⟨some (v.take ls.length) :: out', v.take ls.length :: ps', ?_, ?_, ?_⟩
    · rw [sliceOpts, heq]
      simp only [Option.map_some']
      rw [hS, List.drop_drop]
    · rw [seq_some, hseq]
      rfl
    · simp only [List.flatten_cons]
      rw [hflat, hS, List.take_add]

/-- C9: on an Encoded container (placeholder `None` at `B0_params[0]`,
arrays elsewhere), feeding a vector of exactly `num_params` entries
through `from_vector` and reading it back with `to_vector` returns the
same vector: the slices are cut at `gate_dim`, `gate_dim` per operator and
the established `B0_params` lengths, and concatenated back in the same
order. -/
theorem c9_vector_roundtrip (s : GaugeInvGateSet) (v : List ℚ)
    (tail : List (Option (List ℚ)))
    (hB : s.B0_params = none :: tail)
    (hSome : ∀ b ∈ tail, b.isSome)
    (hlen : v.length = s.gate_dim + s.D_params.length * s.gate_dim +
      (tail.map (fun b => (b.getD []).length)).sum) :
    ∃ s', from_vector s v = some s' ∧ to_vector s' = some v := by
  set dim := s.gate_dim with hdim
  set n := s.D_params.length with hn
  set S := (tail.map (fun b => (b.getD []).length)).sum with hS
  have hd1 : n * dim ≤ (v.drop dim).length := by
    rw [List.length_drop]
    omega
  obtain ⟨hDl, hDa, hDf, hDr⟩ := sliceSeq_replicate n dim (v.drop dim) hd1
  have hd2 : S ≤ ((v.drop dim).drop (n * dim)).length := by
    rw [List.length_drop, List.length_drop]
    omega
  have hd2' : S ≤ ((sliceSeq (v.drop dim) (List.replicate n dim)).2).length := by
    rw [hDr]; exact hd2
  obtain ⟨out, ps, hOpt, hSeq, hFlat⟩ := sliceOpts_spec tail
    ((sliceSeq (v.drop dim) (List.replicate n dim)).2) hSome hd2'
  refine ⟨⟨s.gate_dim, v.take dim,
      (sliceSeq (v.drop dim) (List.replicate n dim)).1, none :: out,
      s.gateLabels, s.storedY0⟩, ?_, ?_⟩
  · rw [from_vector, hB]
    simp only [← hdim, ← hn]
    rw [hOpt]
  · rw [to_vector]
    have hE : (v.take dim).length = dim := by
      rw [List.length_take]
      omega
    rw [if_pos ⟨hE, hDa⟩]
    simp only [List.drop_one, List.tail_cons, hSeq]
    have hps : ps.flatten = (v.drop dim).drop (n * dim) := by
      rw [hFlat, hDr]
      apply List.take_of_length_le
      rw [List.length_drop, List.length_drop]
      omega
    rw [hDf, hps]
    have : v.take dim ++ ((v.drop dim).take (n * dim) ++ (v.drop dim).drop (n * dim)) =
        v.take dim ++ v.drop dim := by
      rw [List.take_append_drop]
    simp only [List.append_assoc]
    rw [this, List.take_append_drop]

/-- Witness for C9 on a two-operator container with `gate_dim = 2` and one
length-3 transition block: `num_params = 9` and the round trip returns the
vector `[1..9]`. -/
theorem c9_witness :
    (S9c9.B0_params = none :: [some [0, 0, 0]] ∧
      num_params S9c9 = some 9 ∧
      ([1, 2, 3, 4, 5, 6, 7, 8, 9] : List ℚ).length =
        S9c9.gate_dim + S9c9.D_params.length * S9c9.gate_dim +
          (([some [0, 0, 0]] : List (Option (List ℚ))).map
            (fun b => (b.getD []).length)).sum) ∧
    ∃ s', from_vector S9c9 [1, 2, 3, 4, 5, 6, 7, 8, 9] = some s' ∧
      to_vector s' = some [1, 2, 3, 4, 5, 6, 7, 8, 9] :=
  ⟨⟨by decide, by decide, by decide⟩,
    c9_vector_roundtrip S9c9 [1, 2, 3, 4, 5, 6, 7, 8, 9] [some [0, 0, 0]]
      (by decide) (by decide) (by decide)⟩

/-! ### Lemmas for the parameter/permutation construction loops -/

theorem foldl_pp_k (step : PPState → (ℕ × ℕ) → PPState)
    (hk : ∀ st p, (step st p).k = st.k + 2) :
    ∀ (l : List (ℕ × ℕ)) (st : PPState),
      (l.foldl step st).k = st.k + 2 * l.length
  | [], st => by simp
  | p :: ps, st => by
    rw [List.foldl_cons, foldl_pp_k step hk ps (step st p), hk]
    simp [List.length_cons]
    ring

theorem foldl_pp_lower (step : PPState → (ℕ × ℕ) → PPState)
    (hk : ∀ st p, (step st p).k = st.k + 2)
    (hlow : ∀ st p m, m < st.k → (step st p).params m = st.params m) :
    ∀ (l : List (ℕ × ℕ)) (st : PPState) (m : ℕ), m < st.k →
      (l.foldl step st).params m = st.params m
  | [], st, m, _ => rfl
  | p :: ps, st, m, hm => by
    rw [List.foldl_cons,
      foldl_pp_lower step hk hlow ps (step st p) m (by rw [hk]; omega)]
    exact hlow st p m hm

theorem foldl_pp_at (step : PPState → (ℕ × ℕ) → PPState)
    (hk : ∀ st p, (step st p).k = st.k + 2)
    (hlow : ∀ st p m, m < st.k → (step st p).params m = st.params m)
    (g0 g1 : ℕ × ℕ → ℚ)
    (hw : ∀ st p, (step st p).params st.k = g0 p ∧
      (step st p).params (st.k + 1) = g1 p) :
    ∀ (l : List (ℕ × ℕ)) (st : PPState) (t : ℕ), t < l.length →
      (l.foldl step st).params (st.k + 2 * t) = g0 (l.getD t (0, 0)) ∧
      (l.foldl step st).params (st.k + 2 * t + 1) = g1 (l.getD t (0, 0))
  | [], _, t, ht => absurd ht (by simp)
  | p :: ps, st, 0, _ => by
    rw [List.foldl_cons]
    constructor
    · rw [foldl_pp_lower step hk hlow ps (step st p) (st.k + 2 * 0)
        (by rw [hk]; omega)]
      simpa using (hw st p).1
    · rw [foldl_pp_lower step hk hlow ps (step st p) (st.k + 2 * 0 + 1)
        (by rw [hk]; omega)]
      simpa using (hw st p).2
  | p :: ps, st, t + 1, ht => by
    rw [List.foldl_cons]
    have hrec := foldl_pp_at step hk hlow g0 g1 hw ps (step st p) t
      (by simpa using ht)
    rw [hk st p] at hrec
    have e1 : st.k + 2 + 2 * t = st.k + 2 * (t + 1) := by ring
    rw [e1] at hrec
    simpa using hrec

theorem conj_step_k (evals : List CC) (st : PPState) (p : ℕ × ℕ) :
    (conj_step evals st p).k = st.k + 2 := rfl

theorem conj_step_lower (evals : List CC) (st : PPState) (p : ℕ × ℕ)
    (m : ℕ) (hm : m < st.k) : (conj_step evals st p).params m = st.params m := by
  simp only [conj_step, fset]
  rw [if_neg (by omega), if_neg (by omega)]

theorem conj_step_writes (evals : List CC) (st : PPState) (p : ℕ × ℕ) :
    (conj_step evals st p).params st.k = (evals.getD p.1 czero).re ∧
    (conj_step evals st p).params (st.k + 1) = -|(evals.getD p.1 czero).im| := by
  constructor
  · simp only [conj_step, fset]
    rw [if_neg (by omega)]
    simp
  · simp only [conj_step, fset]
    simp

theorem real_step_k (evals : List CC) (st : PPState) (p : ℕ × ℕ) :
    (real_step evals st p).k = st.k + 2 := rfl

theorem real_step_lower (evals : List CC) (st : PPState) (p : ℕ × ℕ)
    (m : ℕ) (hm : m < st.k) : (real_step evals st p).params m = st.params m := by
  simp only [real_step, fset]
  rw [if_neg (by omega), if_neg (by omega)]

theorem real_step_writes (evals : List CC) (st : PPState) (p : ℕ × ℕ) :
    (real_step evals st p).params st.k =
      ((evals.getD p.1 czero).re + (evals.getD p.2 czero).re) / 2 ∧
    (real_step evals st p).params (st.k + 1) =
      |(evals.getD p.1 czero).re - (evals.getD p.2 czero).re| / 2 := by
  constructor
  · simp only [real_step, fset]
    rw [if_neg (by omega)]
    simp
  · simp only [real_step, fset]
    simp

/-! ### The greedy conjugate-pair scan only leaves genuinely non-close
remaining indices -/

theorem inner_step_sub (evals : List CC) (i : ℕ) (s : List (ℕ × ℕ)) (j : ℕ)
    (x : ℕ × ℕ) (hx : x ∈ s) : x ∈ inner_step evals i s j := by
  unfold inner_step
  split
  · exact hx
  · split
    · exact List.mem_append_left _ hx
    · exact hx

theorem foldl_inner_sub (evals : List CC) (i : ℕ) :
    ∀ (js : List ℕ) (s : List (ℕ × ℕ)) (x : ℕ × ℕ), x ∈ s →
      x ∈ js.foldl (inner_step evals i) s
  | [], _, _, hx => hx
  | j :: js, s, x, hx =>
    foldl_inner_sub evals i js (inner_step evals i s j) x
      (inner_step_sub evals i s j x hx)

theorem outer_step_sub (evals : List CC) (s : List (ℕ × ℕ)) (i : ℕ)
    (x : ℕ × ℕ) (hx : x ∈ s) : x ∈ outer_step evals s i := by
  unfold outer_step
  split
  · exact hx
  · exact foldl_inner_sub evals i _ s x hx

theorem foldl_outer_sub (evals : List CC) :
    ∀ (l : List ℕ) (s : List (ℕ × ℕ)) (x : ℕ × ℕ), x ∈ s →
      x ∈ l.foldl (outer_step evals) s
  | [], _, _, hx => hx
  | i :: l, s, x, hx =>
    foldl_outer_sub evals l (outer_step evals s i) x
      (outer_step_sub evals s i x hx)

theorem pairedIn_mono {s s' : List (ℕ × ℕ)}
    (hsub : ∀ x ∈ s, x ∈ s') {x : ℕ}
    (h : pairedIn s x = true) : pairedIn s' x = true := by
  unfold pairedIn at h ⊢
  rw [List.any_eq_true] at h ⊢
  obtain ⟨p, hp, hor⟩ := h
  exact ⟨p, hsub p hp, hor⟩

/-- Two indices that both survive the greedy conjugate-pair scan are
mutually non-close: the scan reached the pair `(p, q)` and the
`np.isclose` test must have failed, else they would have been paired. -/
theorem scan_no_close (evals : List CC) (p q : ℕ)
    (hp : pairedIn (conjugate_pairs evals) p = false)
    (hq : pairedIn (conjugate_pairs evals) q = false)
    (hpq : p < q) (hqn : q < evals.length) :
    cclose (evals.getD p czero).conj (evals.getD q czero) = false := by
  by_contra hcc
  rw [Bool.not_eq_false] at hcc
  have hpn : p < evals.length := lt_trans hpq hqn
  obtain ⟨l1, l2, hsplit⟩ := List.append_of_mem (List.mem_range.mpr hpn)
  have hfold : conjugate_pairs evals =
      l2.foldl (outer_step evals)
        (outer_step evals (l1.foldl (outer_step evals) []) p) := by
    rw [conjugate_pairs, hsplit, List.foldl_append, List.foldl_cons]
  set mid := l1.foldl (outer_step evals) ([] : List (ℕ × ℕ)) with hmid
  have hsub_mid : ∀ x ∈ mid, x ∈ conjugate_pairs evals := by
    intro x hx
    rw [hfold]
    exact foldl_outer_sub evals l2 _ x (outer_step_sub evals mid p x hx)
  have hpmid : ¬ pairedIn mid p = true := by
    intro hb
    rw [pairedIn_mono hsub_mid hb] at hp
    exact Bool.noConfusion hp
  have houter : outer_step evals mid p =
      (List.range' (p + 1) (evals.length - (p + 1))).foldl
        (inner_step evals p) mid := by
    rw [outer_step, if_neg hpmid]
  have hqmem : q ∈ List.range' (p + 1) (evals.length - (p + 1)) := by
    rw [List.mem_range'_1]
    omega
  obtain ⟨m1, m2, hsplit2⟩ := List.append_of_mem hqmem
  set mid2 := m1.foldl (inner_step evals p) mid with hmid2
  have hfold2 : outer_step evals mid p =
      m2.foldl (inner_step evals p) (inner_step evals p mid2 q) := by
    rw [houter, hsplit2, List.foldl_append, List.foldl_cons]
  have hsub2 : ∀ x ∈ inner_step evals p mid2 q, x ∈ conjugate_pairs evals := by
    intro x hx
    rw [hfold]
    apply foldl_outer_sub evals l2
    rw [hfold2]
    exact foldl_inner_sub evals p m2 _ x hx
  have hqmid2 : ¬ pairedIn mid2 q = true := by
    intro hb
    have hsubm2 : ∀ x ∈ mid2, x ∈ conjugate_pairs evals := by
      intro x hx
      rw [hfold]
      apply foldl_outer_sub evals l2
      rw [hfold2]
      exact foldl_inner_sub evals p m2 _ x (inner_step_sub evals p mid2 q x hx)
    rw [pairedIn_mono hsubm2 hb] at hq
    exact Bool.noConfusion hq
  have hmem_pq : (p, q) ∈ inner_step evals p mid2 q := by
    rw [inner_step, if_neg hqmid2, if_pos hcc]
    exact List.mem_append_right _ (by simp)
  have hfinal : (p, q) ∈ conjugate_pairs evals := hsub2 _ hmem_pq
  have : pairedIn (conjugate_pairs evals) p = true := by
    unfold pairedIn
    rw [List.any_eq_true]
    exact ⟨(p, q), hfinal, by simp⟩
  rw [this] at hp
  exact Bool.noConfusion hp

/-! ### Counting: the write-bounds guard forces an exact partition -/

theorem length_filter_split {α : Type} (p : α → Bool) :
    ∀ (l : List α),
      (l.filter p).length + (l.filter (fun a => !p a)).length = l.length
  | [] => rfl
  | x :: xs => by
    by_cases hx : p x = true <;>
      simp [List.filter_cons, hx, ← length_filter_split p xs] <;> omega

theorem flat_length :
    ∀ (l : List (ℕ × ℕ)),
      (l.flatMap (fun pr => [pr.1, pr.2])).length = 2 * l.length
  | [] => rfl
  | x :: xs => by
    simp [List.flatMap_cons, flat_length xs]
    ring

theorem pairedIn_iff_mem_flat (pairs : List (ℕ × ℕ)) (x : ℕ) :
    pairedIn pairs x = true ↔ x ∈ pairs.flatMap (fun pr => [pr.1, pr.2]) := by
  unfold pairedIn
  rw [List.any_eq_true]
  simp only [List.mem_flatMap, Bool.or_eq_true, decide_eq_true_eq]
  constructor
  · rintro ⟨p, hp, h | h⟩ <;> exact ⟨p, hp, by simp [h]⟩
  · rintro ⟨p, hp, hm⟩
    simp only [List.mem_cons, List.mem_singleton] at hm
    rcases hm with h | h | h
    · exact ⟨p, hp, Or.inl h.symm⟩
    · exact ⟨p, hp, Or.inr h.symm⟩
    · exact absurd h (List.not_mem_nil x)

theorem paired_count_le (evals : List CC) :
    ((List.range evals.length).filter
        (fun i => pairedIn (conjugate_pairs evals) i)).length ≤
      2 * (conjugate_pairs evals).length := by
  have hnd : ((List.range evals.length).filter
      (fun i => pairedIn (conjugate_pairs evals) i)).Nodup :=
    (List.nodup_range evals.length).filter _
  rw [← List.toFinset_card_of_nodup hnd,
    ← flat_length (conjugate_pairs evals)]
  calc ((List.range evals.length).filter
        (fun i => pairedIn (conjugate_pairs evals) i)).toFinset.card
      ≤ ((conjugate_pairs evals).flatMap
          (fun pr => [pr.1, pr.2])).toFinset.card := by
        apply Finset.card_le_card
        intro x hx
        rw [List.mem_toFinset] at hx ⊢
        exact (pairedIn_iff_mem_flat _ x).mp (List.of_mem_filter hx)
    _ ≤ ((conjugate_pairs evals).flatMap
          (fun pr => [pr.1, pr.2])).length := List.toFinset_card_le _

/-- Under the write-bounds guard the conjugate pairs and the remaining
indices partition the index range exactly. -/
theorem scan_count (evals : List CC)
    (hbnd : 2 * (conjugate_pairs evals).length +
      (remaining_of evals).length ≤ evals.length) :
    2 * (conjugate_pairs evals).length + (remaining_of evals).length =
      evals.length := by
  have hsplit := length_filter_split
    (fun i => pairedIn (conjugate_pairs evals) i) (List.range evals.length)
  rw [List.length_range] at hsplit
  have hle := paired_count_le evals
  have hrem : (remaining_of evals).length =
      ((List.range evals.length).filter
        (fun i => !pairedIn (conjugate_pairs evals) i)).length := rfl
  omega

/-! ### Indexing helpers -/

theorem getD_map_gen {α β : Type} (f : α → β) (d : α) (d' : β) :
    ∀ (l : List α) (t : ℕ), t < l.length →
      (l.map f).getD t d' = f (l.getD t d)
  | x :: xs, 0, _ => rfl
  | x :: xs, t + 1, h => getD_map_gen f d d' xs t (by simpa using h)
  | [], t, h => absurd h (by simp)

theorem getD_range (n t : ℕ) (h : t < n) : (List.range n).getD t 0 = t := by
  rw [List.getD_eq_getElem _ _ (by simpa using h)]
  exact List.getElem_range _ _

theorem evens_getD (L t : ℕ) (h : t < L / 2) : (evens L).getD t 0 = 2 * t := by
  rw [evens, getD_map_gen (fun t => 2 * t) 0 0 _ t (by simpa using h),
    getD_range _ t h]

theorem evens_length (L : ℕ) : (evens L).length = L / 2 := by
  simp [evens]

theorem real_pairs_length (evals : List CC) :
    (real_pairs_of evals).length = (remaining_of evals).length / 2 := by
  simp [real_pairs_of, evens_length]

theorem real_pairs_getD (evals : List CC) (t : ℕ)
    (ht : t < (real_pairs_of evals).length) :
    (real_pairs_of evals).getD t (0, 0) =
      ((remaining_of evals).getD (2 * t) 0,
       (remaining_of evals).getD (2 * t + 1) 0) := by
  rw [real_pairs_of]
  rw [getD_map_gen _ 0 (0, 0) _ t (by
    rw [evens_length]
    rw [real_pairs_length] at ht
    exact ht)]
  rw [evens_getD _ t (by rw [real_pairs_length] at ht; exact ht)]

theorem pp_init_k : (⟨0, fun _ => 0, fun _ _ => 0⟩ : PPState).k = 0 := rfl

theorem pp_st2_k (evals : List CC) :
    (pp_build_st2 evals).k = 2 * (conjugate_pairs evals).length +
      2 * (real_pairs_of evals).length := by
  rw [pp_build_st2, foldl_pp_k (real_step evals) (real_step_k evals),
    foldl_pp_k (conj_step evals) (conj_step_k evals), pp_init_k]
  omega

/-- Reading the final parameter array below the running slot index of the
pair loops sees exactly what those loops wrote. -/
theorem param_perm_build_lower (evals : List CC) (m : ℕ)
    (hm : m < (pp_build_st2 evals).k) :
    (param_perm_build evals).1 m = (pp_build_st2 evals).params m := by
  rw [param_perm_build]
  split
  · simp only [fset]
    rw [if_neg (by omega)]
  · rfl

/-- The conjugate-pair slots of the final parameter array. -/
theorem pp_conj_slots (evals : List CC) (t : ℕ)
    (ht : t < (conjugate_pairs evals).length) :
    (param_perm_build evals).1 (2 * t) =
      (evals.getD ((conjugate_pairs evals).getD t (0, 0)).1 czero).re ∧
    (param_perm_build evals).1 (2 * t + 1) =
      -|(evals.getD ((conjugate_pairs evals).getD t (0, 0)).1 czero).im| := by
  have hat := foldl_pp_at (conj_step evals) (conj_step_k evals)
    (conj_step_lower evals)
    (fun p => (evals.getD p.1 czero).re)
    (fun p => -|(evals.getD p.1 czero).im|)
    (conj_step_writes evals) (conjugate_pairs evals)
    ⟨0, fun _ => 0, fun _ _ => 0⟩ t ht
  rw [pp_init_k] at hat
  simp only [Nat.zero_add] at hat
  have hk2 := pp_st2_k evals
  have hb1 : 2 * t < (pp_build_st2 evals).k := by omega
  have hb2 : 2 * t + 1 < (pp_build_st2 evals).k := by omega
  have hst1k : ((conjugate_pairs evals).foldl (conj_step evals)
      ⟨0, fun _ => 0, fun _ _ => 0⟩).k = 2 * (conjugate_pairs evals).length := by
    rw [foldl_pp_k (conj_step evals) (conj_step_k evals), pp_init_k]
    omega
  constructor
  · rw [param_perm_build_lower evals _ hb1, pp_build_st2,
      foldl_pp_lower (real_step evals) (real_step_k evals)
        (real_step_lower evals) _ _ (2 * t) (by rw [hst1k]; omega)]
    exact hat.1
  · rw [param_perm_build_lower evals _ hb2, pp_build_st2,
      foldl_pp_lower (real_step evals) (real_step_k evals)
        (real_step_lower evals) _ _ (2 * t + 1) (by rw [hst1k]; omega)]
    exact hat.2

/-- The real-pair slots of the final parameter array. -/
theorem pp_real_slots (evals : List CC) (t : ℕ)
    (ht : t < (real_pairs_of evals).length) :
    (param_perm_build evals).1 (2 * (conjugate_pairs evals).length + 2 * t) =
      ((evals.getD ((real_pairs_of evals).getD t (0, 0)).1 czero).re +
        (evals.getD ((real_pairs_of evals).getD t (0, 0)).2 czero).re) / 2 ∧
    (param_perm_build evals).1 (2 * (conjugate_pairs evals).length + 2 * t + 1) =
      |(evals.getD ((real_pairs_of evals).getD t (0, 0)).1 czero).re -
        (evals.getD ((real_pairs_of evals).getD t (0, 0)).2 czero).re| / 2 := by
  have hst1k : ((conjugate_pairs evals).foldl (conj_step evals)
      ⟨0, fun _ => 0, fun _ _ => 0⟩).k = 2 * (conjugate_pairs evals).length := by
    rw [foldl_pp_k (conj_step evals) (conj_step_k evals), pp_init_k]
    omega
  have hat := foldl_pp_at (real_step evals) (real_step_k evals)
    (real_step_lower evals)
    (fun p => ((evals.getD p.1 czero).re + (evals.getD p.2 czero).re) / 2)
    (fun p => |(evals.getD p.1 czero).re - (evals.getD p.2 czero).re| / 2)
    (real_step_writes evals) (real_pairs_of evals)
    ((conjugate_pairs evals).foldl (conj_step evals)
      ⟨0, fun _ => 0, fun _ _ => 0⟩) t ht
  rw [hst1k] at hat
  have hk2 := pp_st2_k evals
  have hb1 : 2 * (conjugate_pairs evals).length + 2 * t <
      (pp_build_st2 evals).k := by omega
  have hb2 : 2 * (conjugate_pairs evals).length + 2 * t + 1 <
      (pp_build_st2 evals).k := by omega
  constructor
  · rw [param_perm_build_lower evals _ hb1]
    exact hat.1
  · rw [param_perm_build_lower evals _ hb2]
    exact hat.2

theorem getD_mem_of_lt {α : Type} : ∀ (l : List α) (n : ℕ) (d : α),
    n < l.length → l.getD n d ∈ l
  | x :: xs, 0, _, _ => List.mem_cons_self x xs
  | x :: xs, n + 1, d, h =>
    List.mem_cons_of_mem x (getD_mem_of_lt xs n d (by simpa using h))
  | [], n, _, h => absurd h (by simp)

theorem remaining_unpaired (evals : List CC) (x : ℕ)
    (hx : x ∈ remaining_of evals) :
    pairedIn (conjugate_pairs evals) x = false := by
  have h := List.of_mem_filter hx
  simpa using h

theorem remaining_lt_length (evals : List CC) (x : ℕ)
    (hx : x ∈ remaining_of evals) : x < evals.length :=
  List.mem_range.mp (List.mem_of_mem_filter hx)

theorem remaining_sorted (evals : List CC) :
    (remaining_of evals).Pairwise (· < ·) :=
  (List.pairwise_lt_range _).filter _

theorem remaining_getD_lt (evals : List CC) (i j : ℕ) (hij : i < j)
    (hj : j < (remaining_of evals).length) :
    (remaining_of evals).getD i 0 < (remaining_of evals).getD j 0 := by
  have hp := remaining_sorted evals
  rw [List.pairwise_iff_getElem] at hp
  have h := hp i j (lt_trans hij hj) hj hij
  rwa [List.getD_eq_getElem _ _ (lt_trans hij hj),
    List.getD_eq_getElem _ _ hj]

/-- The two members of a real pair have genuinely different (real)
eigenvalues: the scan would have conjugate-paired them otherwise. -/
theorem real_pair_values_ne (evals : List CC)
    (hA : ((remaining_of evals).all
      fun i => isrealC (evals.getD i czero)) = true)
    (t : ℕ) (ht : t < (real_pairs_of evals).length) :
    (evals.getD ((real_pairs_of evals).getD t (0, 0)).1 czero).re ≠
      (evals.getD ((real_pairs_of evals).getD t (0, 0)).2 czero).re := by
  rw [real_pairs_getD evals t ht]
  have hRlen : 2 * t + 1 < (remaining_of evals).length := by
    rw [real_pairs_length] at ht; omega
  set p := (remaining_of evals).getD (2 * t) 0 with hpdef
  set q := (remaining_of evals).getD (2 * t + 1) 0 with hqdef
  have hpmem : p ∈ remaining_of evals := by
    rw [hpdef]; exact getD_mem_of_lt _ _ _ (by omega)
  have hqmem : q ∈ remaining_of evals := by
    rw [hqdef]; exact getD_mem_of_lt _ _ _ hRlen
  have hpq : p < q := remaining_getD_lt evals _ _ (by omega) hRlen
  have hqn : q < evals.length := remaining_lt_length evals q hqmem
  have hclose := scan_no_close evals p q (remaining_unpaired evals p hpmem)
    (remaining_unpaired evals q hqmem) hpq hqn
  rw [List.all_eq_true] at hA
  have him_p : (evals.getD p czero).im = 0 := isrealC_eq _ (hA p hpmem)
  have him_q : (evals.getD q czero).im = 0 := isrealC_eq _ (hA q hqmem)
  have hconj : (evals.getD p czero).conj = evals.getD p czero := by
    unfold CC.conj
    rw [him_p, neg_zero, ← him_p]
  rw [hconj] at hclose
  simp only [cclose, sqLeLin, Bool.or_eq_false_iff,
    decide_eq_false_iff_not, not_le] at hclose
  obtain ⟨ht1, _⟩ := hclose
  intro heq
  have hns : normSq (evals.getD p czero - evals.getD q czero) = 0 := by
    rw [CC.sub_def]
    unfold normSq
    simp only
    rw [him_p, him_q, heq]
    ring
  rw [hns] at ht1
  have hBnn := normSq_nonneg (evals.getD q czero)
  unfold atol rtol at ht1
  nlinarith

/-- The un-paired real eigenvalue lands in the last parameter slot. -/
theorem pp_odd_slot (evals : List CC)
    (hbnd : 2 * (conjugate_pairs evals).length +
      (remaining_of evals).length ≤ evals.length)
    (hodd : evals.length % 2 = 1) :
    (param_perm_build evals).1 (evals.length - 1) =
      (evals.getD ((remaining_of evals).getLastD 0) czero).re := by
  have hcnt := scan_count evals hbnd
  have hR : (remaining_of evals).length % 2 = 1 := by omega
  have hk2 := pp_st2_k evals
  rw [real_pairs_length] at hk2
  have heq : evals.length - 1 = (pp_build_st2 evals).k := by omega
  rw [param_perm_build, if_pos hR]
  simp only [fset]
  rw [if_pos heq]

/-- C4: whenever `_parameterize_real_gate_mx` completes, each conjugate
pair `(i,j)` found by the scan occupies slots `(2t, 2t+1)` with values
`(evals[i].real, -|evals[i].imag|)` and second entry `≤ 0`; each real pair
occupies the following slots with `(mean, |half-difference|)` and second
entry `> 0`; and for odd `d` the single leftover real eigenvalue occupies
the last parameter slot as its real part. -/
theorem c4_parameter_emission (evals : List CC)
    (h : (parameterize_real_gate_mx evals).isSome = true) :
    (∀ t, t < (conjugate_pairs evals).length →
      (ppOf evals).1 (2 * t) =
        (evals.getD ((conjugate_pairs evals).getD t (0, 0)).1 czero).re ∧
      (ppOf evals).1 (2 * t + 1) =
        -|(evals.getD ((conjugate_pairs evals).getD t (0, 0)).1 czero).im| ∧
      (ppOf evals).1 (2 * t + 1) ≤ 0) ∧
    (∀ t, t < (real_pairs_of evals).length →
      (ppOf evals).1 (2 * (conjugate_pairs evals).length + 2 * t) =
        ((evals.getD ((real_pairs_of evals).getD t (0, 0)).1 czero).re +
          (evals.getD ((real_pairs_of evals).getD t (0, 0)).2 czero).re) / 2 ∧
      (ppOf evals).1 (2 * (conjugate_pairs evals).length + 2 * t + 1) =
        |(evals.getD ((real_pairs_of evals).getD t (0, 0)).1 czero).re -
          (evals.getD ((real_pairs_of evals).getD t (0, 0)).2 czero).re| / 2 ∧
      0 < (ppOf evals).1 (2 * (conjugate_pairs evals).length + 2 * t + 1)) ∧
    (evals.length % 2 = 1 →
      (ppOf evals).1 (evals.length - 1) =
        (evals.getD ((remaining_of evals).getLastD 0) czero).re) := by
  rw [parameterize_real_gate_mx] at h
  by_cases hA : ((remaining_of evals).all
      fun i => isrealC (evals.getD i czero)) = true
  case neg => rw [if_neg hA] at h; simp at h
  rw [if_pos hA] at h
  by_cases hB : 2 * (conjugate_pairs evals).length +
      (remaining_of evals).length ≤ evals.length
  case neg => rw [if_neg hB] at h; simp at h
  have hpp : ppOf evals = param_perm_build evals := by
    rw [ppOf, parameterize_real_gate_mx, if_pos hA, if_pos hB]
    rfl
  rw [hpp]
  refine ⟨?_, ?_, ?_⟩
  · intro t ht
    obtain ⟨h0, h1⟩ := pp_conj_slots evals t ht
    exact ⟨h0, h1, by rw [h1]; simp [abs_nonneg]⟩
  · intro t ht
    obtain ⟨h0, h1⟩ := pp_real_slots evals t ht
    refine ⟨h0, h1, ?_⟩
    rw [h1]
    have hne := real_pair_values_ne evals hA t ht
    have habs : 0 < |(evals.getD ((real_pairs_of evals).getD t (0, 0)).1 czero).re -
        (evals.getD ((real_pairs_of evals).getD t (0, 0)).2 czero).re| :=
      abs_pos.mpr (sub_ne_zero_of_ne hne)
    linarith
  · intro hodd
    exact pp_odd_slot evals hB hodd

/-- Witness for C4 at `evalsC4 = [1+2i, 1-2i, 5, 3, 7]`: one conjugate
pair at slots `(0,1) = (1,-2)`, one real pair at slots `(2,3) = (4,1)`
with positive tag, and the leftover eigenvalue `7` in the last slot. -/
theorem c4_witness :
    (parameterize_real_gate_mx evalsC4).isSome = true ∧
    (ppOf evalsC4).1 0 =
      (evalsC4.getD ((conjugate_pairs evalsC4).getD 0 (0, 0)).1 czero).re ∧
    (ppOf evalsC4).1 1 ≤ 0 ∧
    0 < (ppOf evalsC4).1 (2 * (conjugate_pairs evalsC4).length + 2 * 0 + 1) ∧
    (ppOf evalsC4).1 (evalsC4.length - 1) =
      (evalsC4.getD ((remaining_of evalsC4).getLastD 0) czero).re := by
  have h := c4_parameter_emission evalsC4 (by decide)
  refine ⟨by decide, ?_, ?_, ?_, ?_⟩
  · have := (h.1 0 (by decide)).1
    simpa using this
  · exact (h.1 0 (by decide)).2.2
  · exact (h.2.1 0 (by decide)).2.2
  · exact h.2.2 (by decide)
